import Mathlib

/-!
Verification development for the eCFR analyzer ingestion pipeline and its
read API.  The JavaScript sources (`scripts/ingest.js`, `backend/index.js`,
`backend/models/Regulation.js`) are shallowly embedded below: pure fragments
become Lean functions, the network / database effects become explicit oracles
and state passing, and IEEE numbers appearing only through a single division
are modelled by rationals together with an explicit NaN/Infinity marker
(`JSNum`) so that the division-by-zero behaviour of JavaScript is preserved.
-/

namespace Ecfr

/-- Result of a JavaScript floating-point division pipeline: either an
ordinary (rational-modelled) number, or one of the non-finite values JS
produces on division by zero. -/
inductive JSNum where
  | num (q : ℚ)
  | nan
  | inf
  | negInf
deriving DecidableEq

/-- JavaScript division `a / b`: division by zero yields `NaN` when the
numerator is zero and a signed infinity otherwise. -/
def jsDiv (a b : ℚ) : JSNum :=
  if b = 0 then
    if a = 0 then .nan else if 0 < a then .inf else .negInf
  else .num (a / b)

/-- Multiplication of a `JSNum` by a (nonzero, positive in all uses here)
rational constant, as JS multiplication acts on NaN/Infinity. -/
def jsMulConst (x : JSNum) (c : ℚ) : JSNum :=
  match x with
  | .num q => .num (q * c)
  | .nan => .nan
  | .inf => if 0 < c then .inf else if c = 0 then .nan else .negInf
  | .negInf => if 0 < c then .negInf else if c = 0 then .nan else .inf

/-- The JavaScript `\s` character class (WhiteSpace and LineTerminator code
points), which also governs `String.prototype.trim`. -/
def isJsSpace (c : Char) : Bool :=
  let n := c.toNat
  n = 9 || n = 10 || n = 11 || n = 12 || n = 13 || n = 32 || n = 160 ||
  n = 5760 || (8192 ≤ n && n ≤ 8202) || n = 8232 || n = 8233 ||
  n = 8239 || n = 8287 || n = 12288 || n = 65279

/-- The JavaScript `\d` character class. -/
def isJsDigit (c : Char) : Bool :=
  48 ≤ c.toNat && c.toNat ≤ 57

/-- Dropping a prefix by predicate never lengthens a list (helper). -/
theorem length_dropWhile_le (p : Char → Bool) (l : List Char) :
    (l.dropWhile p).length ≤ l.length := by
  induction l with
  | nil => simp
  | cons c cs ih =>
    by_cases h : p c
    · simp [List.dropWhile, h]; omega
    · simp [List.dropWhile, h]

/-- Model of `String.prototype.trim`: strip leading and trailing whitespace. -/
def jsTrim (l : List Char) : List Char :=
  ((l.dropWhile isJsSpace).reverse.dropWhile isJsSpace).reverse

/-- The `jsTrim` function packaged on strings, as used for section text in `fetchTitle`. -/
def jsTrimStr (s : String) : String :=
  ⟨jsTrim s.data⟩

/-- Streaming form of `str.split(/\s+/)`: walk the characters keeping the
current field (reversed) and whether the previous character was part of a
whitespace run; a new whitespace run ends the current field, and further
characters of the same run are absorbed into the single separator, exactly
as the maximal `\s+` matches of the JavaScript split. -/
def wsSplitAux (lastWs : Bool) (cur : List Char) (l : List Char) :
    List (List Char) :=
  match l with
  | [] => [cur.reverse]
  | c :: cs =>
    if isJsSpace c then
      if lastWs then wsSplitAux true cur cs
      else cur.reverse :: wsSplitAux true [] cs
    else wsSplitAux false (c :: cur) cs

/-- Model of `str.split(/\s+/)`: fields separated by the maximal whitespace runs of
the string (a leading or trailing run contributes an empty field, exactly as
in JavaScript). -/
def wsRunSplit (l : List Char) : List (List Char) :=
  wsSplitAux false [] l

/-- Model of `content.trim().split(/\s+/).filter(Boolean).length` from `ingestAll`:
the word count used throughout the pipeline. -/
def jsWordCount (s : String) : Nat :=
  ((wsRunSplit (jsTrim s.data)).filter (fun t => t ≠ [])).length

/-- Number of maximal whitespace-delimited non-empty tokens of a character
list.  This is the specification-side counter, written directly from the
spec's words; the pipeline's `jsWordCount` is proved to agree with it. -/
def specTokenCount (l : List Char) : Nat :=
  match l with
  | [] => 0
  | c :: cs =>
    if isJsSpace c then specTokenCount cs
    else 1 + specTokenCount (cs.dropWhile (fun d => !isJsSpace d))
termination_by l.length
decreasing_by
  · simp
  · simp only [List.length_cons]
    exact Nat.lt_succ_of_le (length_dropWhile_le _ _)

/-- Length of the greedy match of `(\.\d+)*` at the head of the list, with
explicit fuel (the list length always suffices, each round consuming at
least two characters). -/
def dotGroupsLenF (fuel : Nat) (l : List Char) : Nat :=
  match fuel, l with
  | 0, _ => 0
  | _ + 1, [] => 0
  | fuel + 1, c :: r =>
    if c = '.' then
      let ds := r.takeWhile isJsDigit
      if ds = [] then 0
      else ds.length + 1 + dotGroupsLenF fuel (r.dropWhile isJsDigit)
    else 0

/-- Length of the greedy match of `(\.\d+)*` at the head of the list. -/
def dotGroupsLen (l : List Char) : Nat :=
  dotGroupsLenF l.length l

/-- Length of the match of the reference pattern `§\s*\d+(\.\d+)*` at the
head of the list, or `none` when the pattern does not match there. -/
def refMatchLen (l : List Char) : Option Nat :=
  match l with
  | [] => none
  | c :: rest =>
    if c = '§' then
      let sp := rest.takeWhile isJsSpace
      let r1 := rest.dropWhile isJsSpace
      let ds := r1.takeWhile isJsDigit
      if ds = [] then none
      else some (1 + sp.length + ds.length + dotGroupsLen (r1.dropWhile isJsDigit))
    else none

/-- Length of the match of the defined-term pattern `“[^”]+”` at the head of
the list, or `none` when the pattern does not match there. -/
def defMatchLen (l : List Char) : Option Nat :=
  match l with
  | [] => none
  | c :: rest =>
    if c = '“' then
      let inner := rest.takeWhile (fun d => d ≠ '”')
      if inner = [] then none
      else
        match rest.dropWhile (fun d => d ≠ '”') with
        | '”' :: _ => some (inner.length + 2)
        | _ => none
    else none

/-- Non-overlapping leftmost-first matching of a global-flag JavaScript
regex: at each position of the list either skip characters still covered by
the previous match, or try the pattern; a match of length `n ≥ 1` counts
once and covers its `n` characters, otherwise the scan advances one
character. -/
def scanAux (matchLen : List Char → Option Nat) (skip : Nat)
    (l : List Char) : Nat :=
  match l with
  | [] => 0
  | c :: cs =>
    match skip with
    | k + 1 => scanAux matchLen k cs
    | 0 =>
      match matchLen (c :: cs) with
      | some n => 1 + scanAux matchLen (n - 1) cs
      | none => scanAux matchLen 0 cs

/-- Count the non-overlapping, leftmost-first matches of a pattern over a
character list, as `String.prototype.match` with the `g` flag does. -/
def scanCount (matchLen : List Char → Option Nat) (l : List Char) : Nat :=
  scanAux matchLen 0 l

/-- Model of the reference match count of `computeRefDensity`, from
`computeRefDensity`. -/
def countRefs (content : String) : Nat :=
  scanCount refMatchLen content.data

/-- Model of the quoted-term match count of `computeDefFreq`. -/
def countDefs (content : String) : Nat :=
  scanCount defMatchLen content.data

/-- Model of `computeRefDensity(content, wordCount)`: `(refs / wordCount) * 1000`
with JavaScript division semantics. -/
def computeRefDensity (content : String) (wordCount : Nat) : JSNum :=
  jsMulConst (jsDiv (countRefs content) wordCount) 1000

/-- Model of `computeDefFreq(content, wordCount)`: `defs / wordCount` with JavaScript
division semantics. -/
def computeDefFreq (content : String) (wordCount : Nat) : JSNum :=
  jsDiv (countDefs content) wordCount

set_option maxHeartbeats 1000000 in
/-- Unfolding equation for `specTokenCount` on the empty list. -/
theorem specTokenCount_nil : specTokenCount [] = 0 := by
  unfold specTokenCount
  rfl

/-- Unfolding equation for `specTokenCount` on a cons cell. -/
theorem specTokenCount_cons (c : Char) (cs : List Char) :
    specTokenCount (c :: cs) =
      if isJsSpace c then specTokenCount cs
      else 1 + specTokenCount (cs.dropWhile (fun d => !isJsSpace d)) := by
  rw [specTokenCount]

/-- An all-whitespace list has no tokens. -/
theorem specTokenCount_all_ws (l : List Char)
    (h : ∀ c ∈ l, isJsSpace c = true) : specTokenCount l = 0 := by
  induction l with
  | nil => exact specTokenCount_nil
  | cons c cs ih =>
    rw [specTokenCount_cons, if_pos (h c (by simp))]
    exact ih fun d hd => h d (by simp [hd])

/-- Leading whitespace does not change the token count. -/
theorem specTokenCount_dropWhile_ws (l : List Char) :
    specTokenCount (l.dropWhile isJsSpace) = specTokenCount l := by
  induction l with
  | nil => simp
  | cons c cs ih =>
    by_cases h : isJsSpace c
    · rw [List.dropWhile_cons_of_pos h, ih, specTokenCount_cons, if_pos h]
    · rw [List.dropWhile_cons_of_neg h]

/-- Appending whitespace at the end does not change the token count. -/
theorem specTokenCount_append_ws :
    ∀ (n : Nat) (t s : List Char), t.length ≤ n →
      (∀ c ∈ s, isJsSpace c = true) →
      specTokenCount (t ++ s) = specTokenCount t := by
  intro n
  induction n with
  | zero =>
    intro t s ht hs
    have : t = [] := List.length_eq_zero.mp (Nat.le_zero.mp ht)
    subst this
    rw [List.nil_append, specTokenCount_all_ws s hs, specTokenCount_nil]
  | succ n ih =>
    intro t s ht hs
    cases t with
    | nil => rw [List.nil_append, specTokenCount_all_ws s hs, specTokenCount_nil]
    | cons c ts =>
      rw [List.cons_append, specTokenCount_cons, specTokenCount_cons]
      by_cases h : isJsSpace c
      · rw [if_pos h, if_pos h]
        exact ih ts s (by simp at ht; omega) hs
      · rw [if_neg h, if_neg h]
        congr 1
        rw [List.dropWhile_append]
        by_cases he : (ts.dropWhile (fun d => !isJsSpace d)).isEmpty
        · rw [if_pos he]
          have hid : s.dropWhile (fun d => !isJsSpace d) = s := by
            cases s with
            | nil => simp
            | cons a as =>
              have := hs a (by simp)
              simp [List.dropWhile, this]
          rw [hid]
          rw [List.isEmpty_iff] at he
          rw [he, specTokenCount_all_ws s hs, specTokenCount_nil]
        · rw [if_neg he]
          have hlen : (ts.dropWhile (fun d => !isJsSpace d)).length ≤ n := by
            have := length_dropWhile_le (fun d => !isJsSpace d) ts
            simp at ht
            omega
          exact ih _ s hlen hs

/-- Trimming does not change the token count. -/
theorem specTokenCount_jsTrim (l : List Char) :
    specTokenCount (jsTrim l) = specTokenCount l := by
  unfold jsTrim
  set m := l.dropWhile isJsSpace with hm
  have hdecomp : m = (m.reverse.dropWhile isJsSpace).reverse ++
      (m.reverse.takeWhile isJsSpace).reverse := by
    have h0 := congrArg List.reverse
      (List.takeWhile_append_dropWhile isJsSpace m.reverse)
    rw [List.reverse_append, List.reverse_reverse] at h0
    exact h0.symm
  have hws : ∀ c ∈ (m.reverse.takeWhile isJsSpace).reverse, isJsSpace c = true := by
    intro c hc
    rw [List.mem_reverse] at hc
    exact List.mem_takeWhile_imp hc
  have h1 : specTokenCount m =
      specTokenCount (m.reverse.dropWhile isJsSpace).reverse := by
    conv_lhs => rw [hdecomp]
    exact specTokenCount_append_ws
      ((m.reverse.dropWhile isJsSpace).reverse.length) _ _ (Nat.le_refl _) hws
  rw [← h1, hm, specTokenCount_dropWhile_ws]

/-- Invariant of the split scan: filtered field counts in both scanner
states agree with the token count of the remaining input. -/
theorem wsSplitAux_filter_count (l : List Char) :
    (∀ cur : List Char,
      ((wsSplitAux false cur l).filter (fun t => t ≠ [])).length =
        if cur = [] then specTokenCount l
        else 1 + specTokenCount (l.dropWhile (fun d => !isJsSpace d))) ∧
    ((wsSplitAux true [] l).filter (fun t => t ≠ [])).length =
      specTokenCount l := by
  induction l with
  | nil =>
    constructor
    · intro cur
      by_cases hc : cur = []
      · simp [wsSplitAux, hc, specTokenCount_nil]
      · have : cur.reverse ≠ [] := by simpa using hc
        simp [wsSplitAux, hc, this, specTokenCount_nil]
    · simp [wsSplitAux, specTokenCount_nil]
  | cons c cs ih =>
    obtain ⟨ihF, ihT⟩ := ih
    constructor
    · intro cur
      by_cases h : isJsSpace c
      · rw [show wsSplitAux false cur (c :: cs) =
            cur.reverse :: wsSplitAux true [] cs by simp [wsSplitAux, h]]
        rw [List.filter_cons]
        by_cases hc : cur = []
        · rw [if_neg (by simp [hc])]
          rw [ihT, if_pos hc, specTokenCount_cons, if_pos h]
        · have hrev : cur.reverse ≠ [] := by simpa using hc
          rw [if_pos (by simpa using hrev), if_neg hc, List.length_cons]
          rw [ihT]
          have hdw : (c :: cs).dropWhile (fun d => !isJsSpace d) = c :: cs := by
            simp [List.dropWhile, h]
          rw [hdw, specTokenCount_cons, if_pos h]
          omega
      · rw [show wsSplitAux false cur (c :: cs) =
            wsSplitAux false (c :: cur) cs by simp [wsSplitAux, h]]
        rw [ihF (c :: cur), if_neg (by simp)]
        have hdw : (c :: cs).dropWhile (fun d => !isJsSpace d) =
            cs.dropWhile (fun d => !isJsSpace d) := by
          simp [List.dropWhile, h]
        by_cases hc : cur = []
        · rw [if_pos hc, specTokenCount_cons, if_neg h]
        · rw [if_neg hc, hdw]
    · by_cases h : isJsSpace c
      · rw [show wsSplitAux true [] (c :: cs) =
            wsSplitAux true [] cs by simp [wsSplitAux, h]]
        rw [ihT, specTokenCount_cons, if_pos h]
      · rw [show wsSplitAux true [] (c :: cs) =
            wsSplitAux false [c] cs by simp [wsSplitAux, h]]
        rw [ihF [c], if_neg (by simp)]
        rw [specTokenCount_cons, if_neg h]

/-- The pipeline word count agrees with the specification token count. -/
theorem jsWordCount_eq_specTokenCount (s : String) :
    jsWordCount s = specTokenCount s.data := by
  unfold jsWordCount wsRunSplit
  rw [(wsSplitAux_filter_count (jsTrim s.data)).1 [], if_pos rfl,
    specTokenCount_jsTrim]

/-- UTF-8 encoding of one character as byte values (`crypto` hashes the
UTF-8 byte sequence of the JavaScript string). -/
def utf8EncodeCharNat (c : Char) : List Nat :=
  let n := c.toNat
  if n < 128 then [n]
  else if n < 2048 then [192 + n / 64, 128 + n % 64]
  else if n < 65536 then
    [224 + n / 4096, 128 + n / 64 % 64, 128 + n % 64]
  else
    [240 + n / 262144, 128 + n / 4096 % 64, 128 + n / 64 % 64, 128 + n % 64]

/-- UTF-8 byte sequence of a string. -/
def utf8Bytes (s : String) : List Nat :=
  s.data.flatMap utf8EncodeCharNat

/-- Truncate to a 32-bit word. -/
def w32 (x : Nat) : Nat := x % 4294967296

/-- The 32-bit right rotation. -/
def rotr32 (n x : Nat) : Nat := x / 2 ^ n + x % 2 ^ n * 2 ^ (32 - n)

/-- The 32-bit right shift. -/
def shr32 (n x : Nat) : Nat := x / 2 ^ n

/-- The 32-bit bitwise complement. -/
def not32 (x : Nat) : Nat := 4294967295 - x

/-- The SHA-256 `Ch` function. -/
def shaCh (x y z : Nat) : Nat := (x &&& y) ^^^ (not32 x &&& z)

/-- The SHA-256 `Maj` function. -/
def shaMaj (x y z : Nat) : Nat := (x &&& y) ^^^ (x &&& z) ^^^ (y &&& z)

/-- The SHA-256 big sigma-0 function. -/
def bsig0 (x : Nat) : Nat := rotr32 2 x ^^^ rotr32 13 x ^^^ rotr32 22 x

/-- The SHA-256 big sigma-1 function. -/
def bsig1 (x : Nat) : Nat := rotr32 6 x ^^^ rotr32 11 x ^^^ rotr32 25 x

/-- The SHA-256 small sigma-0 function. -/
def ssig0 (x : Nat) : Nat := rotr32 7 x ^^^ rotr32 18 x ^^^ shr32 3 x

/-- The SHA-256 small sigma-1 function. -/
def ssig1 (x : Nat) : Nat := rotr32 17 x ^^^ rotr32 19 x ^^^ shr32 10 x

/-- The 64 SHA-256 round constants. -/
def shaK : List Nat :=
  [1116352408, 1899447441, 3049323471, 3921009573,
   961987163, 1508970993, 2453635748, 2870763221,
   3624381080, 310598401, 607225278, 1426881987,
   1925078388, 2162078206, 2614888103, 3248222580,
   3835390401, 4022224774, 264347078, 604807628,
   770255983, 1249150122, 1555081692, 1996064986,
   2554220882, 2821834349, 2952996808, 3210313671,
   3336571891, 3584528711, 113926993, 338241895,
   666307205, 773529912, 1294757372, 1396182291,
   1695183700, 1986661051, 2177026350, 2456956037,
   2730485921, 2820302411, 3259730800, 3345764771,
   3516065817, 3600352804, 4094571909, 275423344,
   430227734, 506948616, 659060556, 883997877,
   958139571, 1322822218, 1537002063, 1747873779,
   1955562222, 2024104815, 2227730452, 2361852424,
   2428436474, 2756734187, 3204031479, 3329325298]

/-- The eight 32-bit working variables of the SHA-256 state. -/
structure Hash8 where
  a : Nat
  b : Nat
  c : Nat
  d : Nat
  e : Nat
  f : Nat
  g : Nat
  h : Nat
deriving DecidableEq

/-- The SHA-256 initial hash value. -/
def shaH0 : Hash8 :=
  ⟨1779033703, 3144134277, 1013904242, 2773480762,
   1359893119, 2600822924, 528734635, 1541459225⟩

/-- Extend 16 message-schedule words to 64. -/
def extendSchedule (w16 : List Nat) : List Nat :=
  (List.range 48).foldl
    (fun w _ =>
      let t := w.length
      w ++ [w32 (ssig1 (w.getD (t - 2) 0) + w.getD (t - 7) 0 +
        ssig0 (w.getD (t - 15) 0) + w.getD (t - 16) 0)])
    w16

/-- One SHA-256 round. -/
def shaRound (s : Hash8) (kw : Nat × Nat) : Hash8 :=
  let t1 := w32 (s.h + bsig1 s.e + shaCh s.e s.f s.g + kw.1 + kw.2)
  let t2 := w32 (bsig0 s.a + shaMaj s.a s.b s.c)
  ⟨w32 (t1 + t2), s.a, s.b, s.c, w32 (s.d + t1), s.e, s.f, s.g⟩

/-- Compress one 512-bit chunk (given as 16 words) into the state. -/
def shaCompress (st : Hash8) (chunk : List Nat) : Hash8 :=
  let ws := extendSchedule chunk
  let r := (shaK.zip ws).foldl shaRound st
  ⟨w32 (st.a + r.a), w32 (st.b + r.b), w32 (st.c + r.c), w32 (st.d + r.d),
   w32 (st.e + r.e), w32 (st.f + r.f), w32 (st.g + r.g), w32 (st.h + r.h)⟩

/-- Group padded bytes into big-endian 32-bit words. -/
def toWordsBE (l : List Nat) : List Nat :=
  match l with
  | b0 :: b1 :: b2 :: b3 :: rest =>
    (b0 * 16777216 + b1 * 65536 + b2 * 256 + b3) :: toWordsBE rest
  | _ => []

/-- Process the word stream one 16-word chunk at a time. -/
def processChunks (st : Hash8) (l : List Nat) : Hash8 :=
  match l with
  | w0 :: w1 :: w2 :: w3 :: w4 :: w5 :: w6 :: w7 ::
    w8 :: w9 :: w10 :: w11 :: w12 :: w13 :: w14 :: w15 :: rest =>
    processChunks
      (shaCompress st [w0, w1, w2, w3, w4, w5, w6, w7,
                       w8, w9, w10, w11, w12, w13, w14, w15]) rest
  | _ => st

/-- SHA-256 padding: append `128`, zeros, and the 64-bit big-endian bit
length, reaching a multiple of 64 bytes. -/
def padBytes (msg : List Nat) : List Nat :=
  let bitLen := 8 * msg.length
  let padZeros := (64 - (msg.length + 9) % 64) % 64
  msg ++ [128] ++ List.replicate padZeros 0 ++
    [bitLen / 2 ^ 56 % 256, bitLen / 2 ^ 48 % 256, bitLen / 2 ^ 40 % 256,
     bitLen / 2 ^ 32 % 256, bitLen / 2 ^ 24 % 256, bitLen / 2 ^ 16 % 256,
     bitLen / 2 ^ 8 % 256, bitLen % 256]

/-- Big-endian bytes of a 32-bit word. -/
def bytesBE32 (w : Nat) : List Nat :=
  [w / 16777216 % 256, w / 65536 % 256, w / 256 % 256, w % 256]

/-- The 32-byte SHA-256 digest of a byte sequence. -/
def sha256Digest (msg : List Nat) : List Nat :=
  let st := processChunks shaH0 (toWordsBE (padBytes msg))
  bytesBE32 st.a ++ bytesBE32 st.b ++ bytesBE32 st.c ++ bytesBE32 st.d ++
  bytesBE32 st.e ++ bytesBE32 st.f ++ bytesBE32 st.g ++ bytesBE32 st.h

/-- Lower-case hexadecimal digit for a value below 16. -/
def hexChar (n : Nat) : Char :=
  if n < 10 then Char.ofNat (48 + n) else Char.ofNat (87 + n)

/-- Lower-case hex encoding of a byte list (`digest('hex')`). -/
def bytesToHex (bs : List Nat) : List Char :=
  bs.flatMap (fun b => [hexChar (b / 16 % 16), hexChar (b % 16)])

/-- Model of `computeChecksum(text)`: the SHA-256 fingerprint of the text's UTF-8
bytes, hex-encoded. -/
def computeChecksum (text : String) : String :=
  ⟨bytesToHex (sha256Digest (utf8Bytes text))⟩

/-- One `paragraph` node of the xml2js parse: `p._` is its text, absent when
the element has no character data. -/
structure ParaNode where
  text : Option String
deriving DecidableEq

/-- One `section` node: `sec.$?.label` and the `paragraph` array (`none`
models a missing or non-array `paragraph`, the `Array.isArray` failure
branch). -/
structure SecNode where
  label : Option String
  paragraph : Option (List ParaNode)
deriving DecidableEq

/-- The `regulation` node: its `$.title` attribute and `section` array. -/
structure RegNode where
  attrTitle : Option String
  sectionNodes : Option (List SecNode)
deriving DecidableEq

/-- A successfully parsed XML document (`result`); the `regulation` node may
be absent under optional chaining. -/
structure ParsedDoc where
  regulation : Option RegNode
deriving DecidableEq

/-- Per-section text: `(label + ' ' + para).trim()` with
`para = sec.paragraph.map(p => p._ || '').join('\n')` when `paragraph` is an
array and `''` otherwise. -/
def extractSection (sec : SecNode) : String :=
  let label := sec.label.getD ""
  let para :=
    match sec.paragraph with
    | some ps => String.intercalate "\n" (ps.map (fun p => p.text.getD ""))
    | none => ""
  jsTrimStr (label ++ " " ++ para)

/-- Model of the section mapping from `fetchTitle`. -/
def extractedSections (doc : ParsedDoc) : List String :=
  (match doc.regulation with
   | some r => r.sectionNodes.getD []
   | none => []).map extractSection

/-- Model of the content selection of `fetchTitle`: the extracted text, or
the whole raw document when no section was found (the fallback path). -/
def extractContent (doc : ParsedDoc) (xml : String) : String :=
  let secs := extractedSections doc
  if secs.length ≠ 0 then String.intercalate "\n\n" secs else xml

/-- The agency name `fetchTitle` assigns to a title number. -/
def titleString (t : Nat) : String := "Title " ++ toString t

/-- Model of the display title fallback of `fetchTitle`: the `||`
falls through on a missing or empty attribute. -/
def jsTitleOf (doc : ParsedDoc) (t : Nat) : String :=
  match doc.regulation with
  | some r =>
    match r.attrTitle with
    | some s => if s = "" then titleString t else s
    | none => titleString t
  | none => titleString t

/-- What the network and parser yield for one title: the version marker
(dates abstracted to an ordered stamp), the raw XML text, and the xml2js
result (`none` when `parseStringPromise` rejects). -/
structure RawFetch where
  versionDate : Int
  xml : String
  parsed : Option ParsedDoc
deriving DecidableEq

/-- The object `fetchTitle` resolves with on success. -/
structure UnitInfo where
  agency : String
  title : String
  versionDate : Int
  content : String
deriving DecidableEq

/-- Model of `fetchTitle(titleNumber)`: version lookup, download and parse are
captured by the oracle; any error in them (and any parse rejection) is
caught by the surrounding try/catch, which logs and resolves `null`. -/
def fetchTitle (oracle : Nat → Option RawFetch) (t : Nat) : Option UnitInfo :=
  match oracle t with
  | none => none
  | some rf =>
    match rf.parsed with
    | none => none
    | some doc =>
      some { agency := titleString t
             title := jsTitleOf doc t
             versionDate := rf.versionDate
             content := extractContent doc rf.xml }

/-- The document `Regulation.create` persists: exactly the seven schema
fields of `backend/models/Regulation.js`. -/
structure RegulationRecord where
  agency : String
  title : String
  versionDate : Int
  wordCount : Nat
  checksum : String
  refDensity : JSNum
  defFreq : JSNum
deriving DecidableEq

/-- The record `ingestAll` builds for one fetched unit: word count, the
three metrics and the checksum over the extracted content. -/
def mkRecord (info : UnitInfo) : RegulationRecord :=
  let words := jsWordCount info.content
  { agency := info.agency
    title := info.title
    versionDate := info.versionDate
    wordCount := words
    checksum := computeChecksum info.content
    refDensity := computeRefDensity info.content words
    defFreq := computeDefFreq info.content words }

/-- Failure of the durable store (`Regulation.create` rejecting). -/
inductive PersistErr where
  | persistenceError
deriving DecidableEq

/-- The loop of `ingestAll`: for each title, fetch (skipping the unit when
`fetchTitle` resolved `null`), compute the record and `await
Regulation.create(...)`.  The create call is outside any try/catch, so its
failure propagates out of the loop, which the `Except` return models. -/
def ingestAll (titles : List Nat) (oracle : Nat → Option RawFetch)
    (create : RegulationRecord → List RegulationRecord →
      Except PersistErr (List RegulationRecord))
    (store : List RegulationRecord) : Except PersistErr (List RegulationRecord) :=
  match titles with
  | [] => .ok store
  | t :: ts =>
    match fetchTitle oracle t with
    | none => ingestAll ts oracle create store
    | some info =>
      match create (mkRecord info) store with
      | .error e => .error e
      | .ok store2 => ingestAll ts oracle create store2

/-- A healthy store: `Regulation.create` inserts a new document at the end
of the collection and never touches existing ones. -/
def createOk (r : RegulationRecord) (store : List RegulationRecord) :
    Except PersistErr (List RegulationRecord) := .ok (store ++ [r])

/-- The records one run adds when persistence is healthy: one per title
whose fetch succeeded, in catalog order. -/
def runRecords (titles : List Nat) (oracle : Nat → Option RawFetch) :
    List RegulationRecord :=
  titles.filterMap (fun t => (fetchTitle oracle t).map mkRecord)

/-- With a healthy store the loop appends exactly the run's records. -/
theorem ingestAll_createOk (titles : List Nat) (oracle : Nat → Option RawFetch) :
    ∀ store, ingestAll titles oracle createOk store =
      .ok (store ++ runRecords titles oracle) := by
  induction titles with
  | nil => intro store; simp [ingestAll, runRecords]
  | cons t ts ih =>
    intro store
    unfold ingestAll runRecords
    cases hf : fetchTitle oracle t with
    | none => simp [hf, ih store, runRecords]
    | some info =>
      simp only [hf, createOk, List.filterMap_cons, Option.map_some]
      rw [ih (store ++ [mkRecord info])]
      simp [runRecords]

/-- Mongo's `sort({versionDate:-1}).limit(1)` pick: fold keeping a record
with the greatest `versionDate` (first-seen on ties). -/
def pickLatest (acc : Option RegulationRecord) (r : RegulationRecord) :
    Option RegulationRecord :=
  match acc with
  | none => some r
  | some m => if m.versionDate < r.versionDate then some r else some m

/-- The most recent (by `versionDate`) record of a list. -/
def latestByVersionDate (l : List RegulationRecord) : Option RegulationRecord :=
  l.foldl pickLatest none

/-- Model of the route handler of the per-agency metrics query: filter by agency, sort by
`versionDate` descending, take the first, and answer with its four fields
(`none` models the 404 branch). -/
def metricsQuery (agency : String) (store : List RegulationRecord) :
    Option (Nat × String × JSNum × JSNum) :=
  match latestByVersionDate (store.filter (fun r => r.agency = agency)) with
  | none => none
  | some d => some (d.wordCount, d.checksum, d.refDensity, d.defFreq)

/-- Value of a digit list read in base 10 (`parseInt(run, 10)`). -/
def digitsVal (ds : List Char) : Nat :=
  ds.foldl (fun acc c => acc * 10 + (c.toNat - 48)) 0

/-- Model of the first-digit-run lookup of the route comparator:
the first maximal digit run of the name, as a number; `none` models the
`match` returning `null` (a name without digits). -/
def agencyKeyAux (l : List Char) : Option Nat :=
  match l with
  | [] => none
  | c :: cs =>
    if isJsDigit c then some (digitsVal (c :: cs.takeWhile isJsDigit))
    else agencyKeyAux cs

/-- Numeric sort key of an agency name. -/
def agencyKey (s : String) : Option Nat :=
  agencyKeyAux s.data

/-- The `TypeError` thrown by `a.match(/\d+/)[0]` on a digit-less name,
caught by the route's catch into a 500 response. -/
inductive SortErr where
  | typeError
deriving DecidableEq

/-- The route's comparator `(a, b) => numA - numB`; it throws (is an
`error`) as soon as either name has no digit run. -/
def cmpAgencies (a b : String) : Except SortErr Int :=
  match agencyKey a with
  | none => .error .typeError
  | some x =>
    match agencyKey b with
    | none => .error .typeError
    | some y => .ok ((x : Int) - y)

/-- Ordered insertion driven by the throwing comparator: the element goes
before the first resident it compares below. -/
def insertCmp (x : String) (l : List String) : Except SortErr (List String) :=
  match l with
  | [] => .ok [x]
  | y :: ys =>
    match cmpAgencies x y with
    | .error e => .error e
    | .ok c =>
      if c < 0 then .ok (x :: y :: ys)
      else (insertCmp x ys).map (fun zs => y :: zs)

/-- Comparison sort of the agency list (any correct comparison sort calls
the comparator only on pairs of existing elements, and on none at all for
lists shorter than two). -/
def sortAgenciesAux (acc : List String) (l : List String) :
    Except SortErr (List String) :=
  match l with
  | [] => .ok acc
  | x :: xs =>
    match insertCmp x acc with
    | .error e => .error e
    | .ok acc2 => sortAgenciesAux acc2 xs

/-- Model of the distinct-agency query: the distinct agency names (modelled in
first-occurrence order). -/
def distinctAux (seen : List String) (l : List String) : List String :=
  match l with
  | [] => []
  | a :: rest =>
    if a ∈ seen then distinctAux seen rest
    else a :: distinctAux (a :: seen) rest

/-- The distinct agency names of the store. -/
def distinctAgencies (store : List RegulationRecord) : List String :=
  distinctAux [] (store.map (fun r => r.agency))

/-- Model of the agency-listing route: distinct names, sorted by the numeric key; a
comparator throw becomes the 500 response (`error`). -/
def listAgencies (store : List RegulationRecord) : Except SortErr (List String) :=
  sortAgenciesAux [] (distinctAgencies store)

/-- A zero token count forces every character to be whitespace. -/
theorem all_ws_of_specTokenCount_zero (l : List Char)
    (h : specTokenCount l = 0) : ∀ c ∈ l, isJsSpace c = true := by
  induction l with
  | nil => simp
  | cons c cs ih =>
    rw [specTokenCount_cons] at h
    by_cases hc : isJsSpace c
    · rw [if_pos hc] at h
      intro d hd
      rcases List.mem_cons.mp hd with h1 | h1
      · rw [h1]; exact hc
      · exact ih h d h1
    · rw [if_neg hc] at h
      omega

/-- The reference pattern cannot match at a character other than the
section mark. -/
theorem refMatchLen_none (c : Char) (cs : List Char) (h : c ≠ '§') :
    refMatchLen (c :: cs) = none := by
  simp [refMatchLen, h]

/-- The defined-term pattern cannot match at a character other than the
opening typographic quote. -/
theorem defMatchLen_none (c : Char) (cs : List Char) (h : c ≠ '“') :
    defMatchLen (c :: cs) = none := by
  simp [defMatchLen, h]

/-- A scan whose pattern can never fire counts nothing. -/
theorem scanAux_zero (matchLen : List Char → Option Nat) (bad : Char → Prop)
    (hml : ∀ c cs, ¬ bad c → matchLen (c :: cs) = none) :
    ∀ (l : List Char) (k : Nat), (∀ c ∈ l, ¬ bad c) → scanAux matchLen k l = 0 := by
  intro l
  induction l with
  | nil => intro k _; rfl
  | cons c cs ih =>
    intro k hl
    cases k with
    | succ k =>
      exact ih k fun d hd => hl d (by simp [hd])
    | zero =>
      rw [show scanAux matchLen 0 (c :: cs) =
          (match matchLen (c :: cs) with
           | some n => 1 + scanAux matchLen (n - 1) cs
           | none => scanAux matchLen 0 cs) from rfl]
      rw [hml c cs (hl c (by simp))]
      exact ih 0 fun d hd => hl d (by simp [hd])

/-- A text without the section mark has no counted references. -/
theorem countRefs_zero_of_no_mark (content : String)
    (h : ∀ c ∈ content.data, c ≠ '§') : countRefs content = 0 :=
  scanAux_zero refMatchLen (fun c => c = '§')
    (fun c cs hc => refMatchLen_none c cs hc) content.data 0 h

/-- A text without the opening typographic quote has no counted defined
terms. -/
theorem countDefs_zero_of_no_quote (content : String)
    (h : ∀ c ∈ content.data, c ≠ '“') : countDefs content = 0 :=
  scanAux_zero defMatchLen (fun c => c = '“')
    (fun c cs hc => defMatchLen_none c cs hc) content.data 0 h

/-- Whitespace characters are never the section mark or the opening
quote. -/
theorem ws_not_marker (c : Char) (h : isJsSpace c = true) :
    c ≠ '§' ∧ c ≠ '“' := by
  constructor
  · intro he; rw [he] at h; exact absurd h (by decide)
  · intro he; rw [he] at h; exact absurd h (by decide)

/-- The digest always consists of 32 bytes, each below 256. -/
theorem sha256Digest_bytes (msg : List Nat) :
    (sha256Digest msg).length = 32 ∧ ∀ b ∈ sha256Digest msg, b < 256 := by
  unfold sha256Digest bytesBE32
  constructor
  · simp
  · intro b hb
    simp only [List.mem_append, List.mem_cons, List.not_mem_nil, or_false] at hb
    omega

/-- Hex encoding doubles the length. -/
theorem bytesToHex_length (bs : List Nat) :
    (bytesToHex bs).length = 2 * bs.length := by
  induction bs with
  | nil => rfl
  | cons b bs ih =>
    unfold bytesToHex at ih ⊢
    simp [ih]
    omega

/-- Hex characters produced from byte values are lower-case hex digits. -/
theorem bytesToHex_all_hex (bs : List Nat) :
    ∀ c ∈ bytesToHex bs,
      ((48 ≤ c.toNat && c.toNat ≤ 57) || (97 ≤ c.toNat && c.toNat ≤ 102)) = true := by
  have hdigit : ∀ n, n < 16 →
      ((48 ≤ (hexChar n).toNat && (hexChar n).toNat ≤ 57) ||
       (97 ≤ (hexChar n).toNat && (hexChar n).toNat ≤ 102)) = true := by decide
  intro c hc
  unfold bytesToHex at hc
  rcases List.mem_flatMap.mp hc with ⟨b, _, hb⟩
  rcases List.mem_cons.mp hb with h | h
  · rw [h]; exact hdigit _ (Nat.mod_lt _ (by norm_num))
  · rcases List.mem_cons.mp h with h1 | h1
    · rw [h1]; exact hdigit _ (Nat.mod_lt _ (by norm_num))
    · exact absurd h1 (List.not_mem_nil c)

/-- The section text of end-to-end scenario 1 of the specification. -/
def scenarioText : String :=
  "§ 1.1 This section defines “widget” as any device."

/-- C1: for a text whose computed word count is zero the metric functions
do not return zero densities; the unguarded divisions `refs / wordCount`
and `defs / wordCount` are `0 / 0`, which JavaScript evaluates to `NaN`,
not `0`. -/
theorem c1_zero_wordCount_metrics_nan (s : String) (h : jsWordCount s = 0) :
    computeRefDensity s (jsWordCount s) = JSNum.nan ∧
    computeDefFreq s (jsWordCount s) = JSNum.nan ∧
    JSNum.nan ≠ JSNum.num 0 := by
  have hall : ∀ c ∈ s.data, isJsSpace c = true :=
    all_ws_of_specTokenCount_zero s.data
      (by rw [← jsWordCount_eq_specTokenCount]; exact h)
  have hr : countRefs s = 0 :=
    countRefs_zero_of_no_mark s (fun c hc => (ws_not_marker c (hall c hc)).1)
  have hd : countDefs s = 0 :=
    countDefs_zero_of_no_quote s (fun c hc => (ws_not_marker c (hall c hc)).2)
  rw [h]
  unfold computeRefDensity computeDefFreq
  rw [hr, hd]
  refine ⟨by norm_num [jsDiv, jsMulConst], by norm_num [jsDiv], by decide⟩

/-- Witness for C1 at the empty text. -/
theorem c1_zero_wordCount_metrics_nan_witness :
    jsWordCount "" = 0 ∧
    computeRefDensity "" (jsWordCount "") = JSNum.nan ∧
    computeDefFreq "" (jsWordCount "") = JSNum.nan :=
  ⟨by decide, (c1_zero_wordCount_metrics_nan "" (by decide)).1,
    (c1_zero_wordCount_metrics_nan "" (by decide)).2.1⟩

/-- C4: the fingerprint is a pure, deterministic function of the text (two
computations agree definitionally) and always yields a 64-character
lower-case hexadecimal string. -/
theorem c4_fingerprint_deterministic_hex (t : String) :
    computeChecksum t = computeChecksum t ∧
    (computeChecksum t).length = 64 ∧
    ((computeChecksum t).data.all
      (fun c => (48 ≤ c.toNat && c.toNat ≤ 57) ||
        (97 ≤ c.toNat && c.toNat ≤ 102))) = true := by
  refine ⟨rfl, ?_, ?_⟩
  · show (bytesToHex (sha256Digest (utf8Bytes t))).length = 64
    rw [bytesToHex_length, (sha256Digest_bytes (utf8Bytes t)).1]
  · exact List.all_eq_true.mpr (bytesToHex_all_hex (sha256Digest (utf8Bytes t)))

/-- C5: for a positive word count the reference density is the match count
of the section-mark pattern divided by the word count and scaled by 1000,
and a text with no section mark never contributes matches (digit runs alone
are not counted). -/
theorem c5_refDensity_formula (content : String) (wc : Nat) (h : 0 < wc) :
    computeRefDensity content wc =
      JSNum.num ((countRefs content : ℚ) / (wc : ℚ) * 1000) ∧
    ((∀ c ∈ content.data, c ≠ '§') → countRefs content = 0) := by
  constructor
  · have hwc : ((wc : ℚ)) ≠ 0 := Nat.cast_ne_zero.mpr (by omega)
    simp [computeRefDensity, jsDiv, jsMulConst, hwc]
  · exact countRefs_zero_of_no_mark content

/-- Witness for C5 on the scenario-1 section text: 9 words, 1 reference,
density 1000/9 ≈ 111.11. -/
theorem c5_refDensity_formula_witness :
    0 < 9 ∧ jsWordCount scenarioText = 9 ∧ countRefs scenarioText = 1 ∧
    computeRefDensity scenarioText 9 = JSNum.num (1000 / 9) := by
  refine ⟨by norm_num, by decide, by decide, ?_⟩
  have h := (c5_refDensity_formula scenarioText 9 (by norm_num)).1
  rw [show countRefs scenarioText = 1 from by decide] at h
  rw [h]
  simp only [JSNum.num.injEq]
  push_cast
  ring

/-- C6: for a positive word count the defined-term density is the
non-overlapping leftmost-first match count of the quote pattern divided by
the word count with no scaling; nested or overlapping quoted spans are
counted once, as the two concrete equations record. -/
theorem c6_defDensity_formula (content : String) (wc : Nat) (h : 0 < wc) :
    computeDefFreq content wc =
      JSNum.num ((countDefs content : ℚ) / (wc : ℚ)) ∧
    countDefs "“a“b”c”" = 1 ∧ countDefs "“a”b”" = 1 := by
  refine ⟨?_, by decide, by decide⟩
  have hwc : ((wc : ℚ)) ≠ 0 := Nat.cast_ne_zero.mpr (by omega)
  simp [computeDefFreq, jsDiv, hwc]

/-- Witness for C6 on a three-word text with one quoted term. -/
theorem c6_defDensity_formula_witness :
    0 < 3 ∧ jsWordCount "aa “w” bb" = 3 ∧ countDefs "aa “w” bb" = 1 ∧
    computeDefFreq "aa “w” bb" 3 = JSNum.num (1 / 3) := by
  refine ⟨by norm_num, by decide, by decide, ?_⟩
  have h := (c6_defDensity_formula "aa “w” bb" 3 (by norm_num)).1
  rw [show countDefs "aa “w” bb" = 1 from by decide] at h
  rw [h]
  simp only [JSNum.num.injEq]
  push_cast
  ring

/-- C7: the computed word count of any text equals the number of maximal
whitespace-delimited non-empty tokens. -/
theorem c7_wordCount_counts_tokens (s : String) :
    jsWordCount s = specTokenCount s.data :=
  jsWordCount_eq_specTokenCount s

/-- Oracle under which every title fetches and parses, with the raw
document `w` and no recognizable section nodes. -/
def oracleCE (_ : Nat) : Option RawFetch :=
  some { versionDate := 0, xml := "w", parsed := some ⟨none⟩ }

/-- A store whose insert rejects exactly for the unit `Title 1` (an
isolated per-unit persistence failure). -/
def createFailOn1 (r : RegulationRecord) (store : List RegulationRecord) :
    Except PersistErr (List RegulationRecord) :=
  if r.agency = "Title 1" then .error .persistenceError
  else .ok (store ++ [r])

/-- C2 counterexample: with two healthy units and a store that rejects only
unit 1's insert, the whole run aborts with the persistence error and unit 2
is never processed — even though a run over unit 2 alone succeeds. -/
theorem c2_persistence_failure_aborts_run :
    ingestAll [1, 2] oracleCE createFailOn1 [] =
      .error PersistErr.persistenceError ∧
    (ingestAll [2] oracleCE createFailOn1 []).isOk = true :=
  ⟨rfl, rfl⟩

/-- C2 amended: failures of version lookup, fetch or parse are caught
inside `fetchTitle` and only skip that unit — with healthy persistence the
run completes and appends exactly one record per successfully fetched unit,
in catalog order, regardless of which fetches failed. -/
theorem c2_fetch_failures_isolated (titles : List Nat)
    (oracle : Nat → Option RawFetch) (store : List RegulationRecord) :
    ingestAll titles oracle createOk store =
      .ok (store ++ titles.filterMap
        (fun t => (fetchTitle oracle t).map mkRecord)) :=
  ingestAll_createOk titles oracle store

/-- A parse result with no recognizable section nodes (degraded path). -/
def docDeg : ParsedDoc := ⟨none⟩

/-- The raw document used by the degraded fetch. -/
def xmlDeg : String := "§ 1.1 Hello"

/-- A parse result with one section node whose extracted text coincides
with `xmlDeg`. -/
def docNorm : ParsedDoc :=
  ⟨some ⟨none, some [⟨some "§", some [⟨some "1.1 Hello"⟩]⟩]⟩⟩

/-- Oracle taking the degraded extraction path. -/
def oracleDeg (_ : Nat) : Option RawFetch :=
  some { versionDate := 0, xml := xmlDeg, parsed := some docDeg }

/-- Oracle taking the normal extraction path with the same final text. -/
def oracleNorm (_ : Nat) : Option RawFetch :=
  some { versionDate := 0, xml := "<XML/>", parsed := some docNorm }

/-- C3 counterexample: a degraded (fallback) extraction and a normal one
produce identical `fetchTitle` results and identical persisted records — no
flag or field distinguishes the fallback, so it is a silent substitution. -/
theorem c3_fallback_is_silent :
    extractedSections docDeg = [] ∧
    extractedSections docNorm ≠ [] ∧
    fetchTitle oracleDeg 1 = fetchTitle oracleNorm 1 ∧
    (fetchTitle oracleDeg 1).map mkRecord =
      (fetchTitle oracleNorm 1).map mkRecord := by
  have h3 : fetchTitle oracleDeg 1 = fetchTitle oracleNorm 1 := by decide
  exact ⟨rfl, by decide, h3, congrArg (Option.map mkRecord) h3⟩

/-- C3 amended: whenever no section nodes are found the extraction
silently returns the entire raw document as the normalized text, with no
degraded-extraction indicator in the result or on the persisted record. -/
theorem c3_fallback_returns_raw (doc : ParsedDoc) (xml : String)
    (h : extractedSections doc = []) : extractContent doc xml = xml := by
  unfold extractContent
  rw [h]
  simp

/-- Witness for the amended C3 on the concrete degraded document. -/
theorem c3_fallback_returns_raw_witness :
    extractedSections docDeg = [] ∧ extractContent docDeg "raw doc" = "raw doc" :=
  ⟨rfl, c3_fallback_returns_raw docDeg "raw doc" rfl⟩

/-- C8: with a healthy store every persistence is an insert at the end: the
prior records survive unchanged as a prefix, one record is appended per
successful unit, and re-running the identical ingestion appends the same
records again instead of deduplicating or updating. -/
theorem c8_snapshots_append_only (titles : List Nat)
    (oracle : Nat → Option RawFetch) (store : List RegulationRecord) :
    ingestAll titles oracle createOk store =
      .ok (store ++ runRecords titles oracle) ∧
    ingestAll titles oracle createOk (store ++ runRecords titles oracle) =
      .ok (store ++ runRecords titles oracle ++ runRecords titles oracle) ∧
    (store ++ runRecords titles oracle).take store.length = store := by
  refine ⟨ingestAll_createOk titles oracle store, ?_,
    List.take_left store (runRecords titles oracle)⟩
  rw [ingestAll_createOk titles oracle (store ++ runRecords titles oracle)]

/-- Unfold of the latest pick on an empty accumulator. -/
theorem pickLatest_none (r : RegulationRecord) : pickLatest none r = some r := rfl

/-- Unfold of the latest pick on a non-empty accumulator. -/
theorem pickLatest_some (m r : RegulationRecord) :
    pickLatest (some m) r =
      if m.versionDate < r.versionDate then some r else some m := rfl

/-- A record produced by the latest-pick fold is the accumulator or a list
element. -/
theorem pickLatest_foldl_mem :
    ∀ (l : List RegulationRecord) (acc : Option RegulationRecord)
      (r : RegulationRecord),
      l.foldl pickLatest acc = some r → acc = some r ∨ r ∈ l := by
  intro l
  induction l with
  | nil => intro acc r h; exact Or.inl h
  | cons x xs ih =>
    intro acc r h
    rw [List.foldl_cons] at h
    rcases ih (pickLatest acc x) r h with h1 | h1
    · cases acc with
      | none =>
        rw [pickLatest_none] at h1
        right
        simp at h1
        simp [h1]
      | some m =>
        rw [pickLatest_some] at h1
        by_cases hc : m.versionDate < x.versionDate
        · rw [if_pos hc] at h1
          right
          simp at h1
          simp [h1]
        · rw [if_neg hc] at h1
          exact Or.inl h1
    · exact Or.inr (List.mem_cons_of_mem x h1)

/-- The latest-pick fold never decreases the accumulator's date. -/
theorem pickLatest_foldl_ge_acc :
    ∀ (l : List RegulationRecord) (m r : RegulationRecord),
      l.foldl pickLatest (some m) = some r →
      m.versionDate ≤ r.versionDate := by
  intro l
  induction l with
  | nil =>
    intro m r h
    simp at h
    simp [h]
  | cons x xs ih =>
    intro m r h
    rw [List.foldl_cons, pickLatest_some] at h
    by_cases hc : m.versionDate < x.versionDate
    · rw [if_pos hc] at h
      exact le_trans (le_of_lt hc) (ih x r h)
    · rw [if_neg hc] at h
      exact ih m r h

/-- Every element's date is bounded by the fold's result. -/
theorem pickLatest_foldl_ge :
    ∀ (l : List RegulationRecord) (acc : Option RegulationRecord)
      (r : RegulationRecord),
      l.foldl pickLatest acc = some r →
      ∀ x ∈ l, x.versionDate ≤ r.versionDate := by
  intro l
  induction l with
  | nil => intro acc r _ x hx; exact absurd hx (List.not_mem_nil x)
  | cons y ys ih =>
    intro acc r h x hx
    rw [List.foldl_cons] at h
    rcases List.mem_cons.mp hx with h1 | h1
    · subst h1
      have hstep : ∃ m, pickLatest acc x = some m ∧
          x.versionDate ≤ m.versionDate := by
        cases acc with
        | none => exact ⟨x, rfl, le_refl _⟩
        | some m =>
          rw [pickLatest_some]
          by_cases hc : m.versionDate < x.versionDate
          · exact ⟨x, by rw [if_pos hc], le_refl _⟩
          · exact ⟨m, by rw [if_neg hc], by omega⟩
      rcases hstep with ⟨m, hm, hxm⟩
      rw [hm] at h
      exact le_trans hxm (pickLatest_foldl_ge_acc ys m r h)
    · exact ih (pickLatest acc y) r h x h1

/-- C9 amended: the per-unit metrics query returns the four stored fields
of a snapshot of that unit with the greatest as-of `versionDate` (the sort
key of the query), not of the most-recently-written one. -/
theorem c9_metrics_latest_by_versionDate (agency : String)
    (store : List RegulationRecord) (r : RegulationRecord)
    (h : latestByVersionDate (store.filter (fun x => x.agency = agency)) =
      some r) :
    metricsQuery agency store =
      some (r.wordCount, r.checksum, r.refDensity, r.defFreq) ∧
    r ∈ store ∧ r.agency = agency ∧
    ∀ x ∈ store.filter (fun x => x.agency = agency),
      x.versionDate ≤ r.versionDate := by
  have hq : metricsQuery agency store =
      some (r.wordCount, r.checksum, r.refDensity, r.defFreq) := by
    unfold metricsQuery
    rw [h]
  have hmem : r ∈ store.filter (fun x => x.agency = agency) := by
    rcases pickLatest_foldl_mem _ none r h with h1 | h1
    · exact absurd h1 (by simp)
    · exact h1
  have hmem2 := List.mem_filter.mp hmem
  exact ⟨hq, hmem2.1, of_decide_eq_true hmem2.2,
    pickLatest_foldl_ge _ none r h⟩

/-- First snapshot of the C9 scenario: later as-of date, written first. -/
def recA : RegulationRecord :=
  ⟨"A", "ta", 2, 10, "ca", .num 0, .num 0⟩

/-- Second snapshot of the C9 scenario: earlier as-of date, written last
(the most-recently-written record). -/
def recB : RegulationRecord :=
  ⟨"A", "tb", 1, 20, "cb", .num 0, .num 0⟩

/-- C9 counterexample: with the most-recently-written snapshot `recB`
carrying an earlier as-of date, the query answers with the other record's
fields — "most recent" is by `versionDate`, not by write order. -/
theorem c9_not_most_recently_written :
    metricsQuery "A" [recA, recB] =
      some (recA.wordCount, recA.checksum, recA.refDensity, recA.defFreq) ∧
    [recA, recB].getLast? = some recB ∧
    recA.wordCount ≠ recB.wordCount :=
  ⟨rfl, rfl, by decide⟩

/-- Witness for the amended C9 on a one-record store. -/
theorem c9_metrics_latest_by_versionDate_witness :
    latestByVersionDate ([recA].filter (fun x => x.agency = "A")) = some recA ∧
    metricsQuery "A" [recA] =
      some (recA.wordCount, recA.checksum, recA.refDensity, recA.defFreq) :=
  ⟨by decide, (c9_metrics_latest_by_versionDate "A" [recA] recA (by decide)).1⟩

/-- Sort key order used by the agencies route (missing keys only ever occur
in positions where the order is vacuous). -/
def keyLe (a b : String) : Prop :=
  (agencyKey a).getD 0 ≤ (agencyKey b).getD 0

/-- Inversion of a successful comparator call. -/
theorem cmpAgencies_ok (x y : String) (c : Int)
    (h : cmpAgencies x y = .ok c) :
    ∃ kx ky, agencyKey x = some kx ∧ agencyKey y = some ky ∧
      c = (kx : Int) - (ky : Int) := by
  unfold cmpAgencies at h
  cases hx : agencyKey x with
  | none => rw [hx] at h; exact absurd h (by simp)
  | some kx =>
    rw [hx] at h
    cases hy : agencyKey y with
    | none => rw [hy] at h; exact absurd h (by simp)
    | some ky =>
      rw [hy] at h
      simp at h
      exact ⟨kx, ky, rfl, rfl, h.symm⟩

/-- A successful insertion permutes the element into the accumulator. -/
theorem insertCmp_ok_perm :
    ∀ (acc : List String) (x : String) (acc2 : List String),
      insertCmp x acc = .ok acc2 → acc2.Perm (x :: acc) := by
  intro acc
  induction acc with
  | nil =>
    intro x acc2 h
    simp [insertCmp] at h
    rw [← h]
  | cons y ys ih =>
    intro x acc2 h
    unfold insertCmp at h
    cases hc : cmpAgencies x y with
    | error e => rw [hc] at h; exact absurd h (by simp)
    | ok c =>
      rw [hc] at h
      dsimp only at h
      by_cases hlt : c < 0
      · rw [if_pos hlt] at h
        simp at h
        rw [← h]
      · rw [if_neg hlt] at h
        cases hi : insertCmp x ys with
        | error e => rw [hi] at h; exact absurd h (by simp [Except.map])
        | ok zs =>
          rw [hi] at h
          simp [Except.map] at h
          rw [← h]
          exact List.Perm.trans (List.Perm.cons y (ih x zs hi))
            (List.Perm.swap x y ys)

/-- A successful insertion preserves sortedness by the numeric key. -/
theorem insertCmp_ok_sorted :
    ∀ (acc : List String) (x : String) (acc2 : List String),
      List.Sorted keyLe acc → insertCmp x acc = .ok acc2 →
      List.Sorted keyLe acc2 := by
  intro acc
  induction acc with
  | nil =>
    intro x acc2 _ h
    simp [insertCmp] at h
    rw [← h]
    exact List.sorted_singleton x
  | cons y ys ih =>
    intro x acc2 hs h
    unfold insertCmp at h
    cases hc : cmpAgencies x y with
    | error e => rw [hc] at h; exact absurd h (by simp)
    | ok c =>
      rcases cmpAgencies_ok x y c hc with ⟨kx, ky, hkx, hky, hceq⟩
      rw [hc] at h
      dsimp only at h
      by_cases hlt : c < 0
      · rw [if_pos hlt] at h
        simp at h
        rw [← h]
        have hxy : keyLe x y := by
          unfold keyLe
          rw [hkx, hky]
          simp
          omega
        refine List.Pairwise.cons ?_ hs
        intro z hz
        rcases List.mem_cons.mp hz with h1 | h1
        · rw [h1]; exact hxy
        · exact le_trans hxy (List.rel_of_sorted_cons hs z h1)
      · rw [if_neg hlt] at h
        cases hi : insertCmp x ys with
        | error e => rw [hi] at h; exact absurd h (by simp [Except.map])
        | ok zs =>
          rw [hi] at h
          simp [Except.map] at h
          rw [← h]
          have hyx : keyLe y x := by
            unfold keyLe
            rw [hkx, hky]
            simp
            omega
          refine List.Pairwise.cons ?_ (ih x zs hs.of_cons hi)
          intro z hz
          have hz2 : z ∈ x :: ys :=
            (insertCmp_ok_perm ys x zs hi).mem_iff.mp hz
          rcases List.mem_cons.mp hz2 with h1 | h1
          · rw [h1]; exact hyx
          · exact List.rel_of_sorted_cons hs z h1

/-- With both keys present, insertion always succeeds and stays all-keyed. -/
theorem insertCmp_ok_of_keys :
    ∀ (acc : List String) (x : String),
      (agencyKey x).isSome = true →
      (∀ y ∈ acc, (agencyKey y).isSome = true) →
      ∃ acc2, insertCmp x acc = .ok acc2 := by
  intro acc
  induction acc with
  | nil => intro x _ _; exact ⟨[x], rfl⟩
  | cons y ys ih =>
    intro x hx hacc
    rcases Option.isSome_iff_exists.mp hx with ⟨kx, hkx⟩
    rcases Option.isSome_iff_exists.mp (hacc y (by simp)) with ⟨ky, hky⟩
    have hc : cmpAgencies x y = .ok ((kx : Int) - ky) := by
      unfold cmpAgencies
      rw [hkx, hky]
    by_cases hlt : ((kx : Int) - ky) < 0
    · refine ⟨x :: y :: ys, ?_⟩
      unfold insertCmp
      rw [hc]
      dsimp only
      rw [if_pos hlt]
    · rcases ih x hx (fun z hz => hacc z (by simp [hz])) with ⟨zs, hzs⟩
      refine ⟨y :: zs, ?_⟩
      unfold insertCmp
      rw [hc]
      dsimp only
      rw [if_neg hlt, hzs]
      rfl

/-- Insertion into an accumulator headed by a key-less name throws. -/
theorem insertCmp_err_head_bad (x y : String) (ys : List String)
    (hy : agencyKey y = none) :
    insertCmp x (y :: ys) = .error .typeError := by
  unfold insertCmp
  have hc : cmpAgencies x y = .error .typeError := by
    unfold cmpAgencies
    cases hx : agencyKey x with
    | none => rfl
    | some kx => rw [hy]
  rw [hc]

/-- The sort accumulates a permutation of everything it was given. -/
theorem sortAgenciesAux_perm :
    ∀ (l acc out : List String), sortAgenciesAux acc l = .ok out →
      out.Perm (acc ++ l) := by
  intro l
  induction l with
  | nil =>
    intro acc out h
    simp [sortAgenciesAux] at h
    rw [← h, List.append_nil]
  | cons x xs ih =>
    intro acc out h
    unfold sortAgenciesAux at h
    cases hi : insertCmp x acc with
    | error e => rw [hi] at h; exact absurd h (by simp)
    | ok acc2 =>
      rw [hi] at h
      refine List.Perm.trans (ih acc2 out h) ?_
      refine List.Perm.trans (List.Perm.append_right xs (insertCmp_ok_perm acc x acc2 hi)) ?_
      exact List.perm_middle.symm

/-- The sort keeps the accumulator sorted by the numeric key. -/
theorem sortAgenciesAux_sorted :
    ∀ (l acc out : List String), List.Sorted keyLe acc →
      sortAgenciesAux acc l = .ok out → List.Sorted keyLe out := by
  intro l
  induction l with
  | nil =>
    intro acc out hs h
    simp [sortAgenciesAux] at h
    rw [← h]
    exact hs
  | cons x xs ih =>
    intro acc out hs h
    unfold sortAgenciesAux at h
    cases hi : insertCmp x acc with
    | error e => rw [hi] at h; exact absurd h (by simp)
    | ok acc2 =>
      rw [hi] at h
      exact ih acc2 out (insertCmp_ok_sorted acc x acc2 hs hi) h

/-- With every name keyed, the sort succeeds. -/
theorem sortAgenciesAux_isOk :
    ∀ (l acc : List String),
      (∀ a ∈ l, (agencyKey a).isSome = true) →
      (∀ a ∈ acc, (agencyKey a).isSome = true) →
      (sortAgenciesAux acc l).isOk = true := by
  intro l
  induction l with
  | nil => intro acc _ _; rfl
  | cons x xs ih =>
    intro acc hl hacc
    rcases insertCmp_ok_of_keys acc x (hl x (by simp))
      (fun y hy => hacc y hy) with ⟨acc2, h2⟩
    unfold sortAgenciesAux
    rw [h2]
    refine ih acc2 (fun a ha => hl a (by simp [ha])) ?_
    intro a ha
    have : a ∈ x :: acc := (insertCmp_ok_perm acc x acc2 h2).mem_iff.mp ha
    rcases List.mem_cons.mp this with h1 | h1
    · rw [h1]; exact hl x (by simp)
    · exact hacc a h1

/-- Once the accumulator is non-empty, a key-less name anywhere in the
remaining input makes the sort throw. -/
theorem sortAgenciesAux_err_of_bad :
    ∀ (l acc : List String), acc ≠ [] →
      (∃ x ∈ l, agencyKey x = none) →
      sortAgenciesAux acc l = .error .typeError := by
  intro l
  induction l with
  | nil => intro acc _ h; rcases h with ⟨x, hx, _⟩; exact absurd hx (List.not_mem_nil x)
  | cons x xs ih =>
    intro acc hacc hbad
    unfold sortAgenciesAux
    rcases hbad with ⟨b, hb, hbkey⟩
    rcases List.mem_cons.mp hb with h1 | h1
    · subst h1
      cases hc : acc with
      | nil => exact absurd hc hacc
      | cons a as =>
        have : insertCmp b (a :: as) = .error .typeError := by
          unfold insertCmp
          have : cmpAgencies b a = .error .typeError := by
            unfold cmpAgencies
            rw [hbkey]
          rw [this]
        rw [this]
    · cases hi : insertCmp x acc with
      | error e =>
        cases e
        rfl
      | ok acc2 =>
        have hne : acc2 ≠ [] := by
          have := (insertCmp_ok_perm acc x acc2 hi).length_eq
          simp at this
          intro hcon
          rw [hcon] at this
          simp at this
        exact ih acc2 hne ⟨b, h1, hbkey⟩

/-- Peeling the first element off the sort of a non-empty list. -/
theorem sortAgenciesAux_nil_cons (x : String) (xs : List String) :
    sortAgenciesAux [] (x :: xs) = sortAgenciesAux [x] xs := rfl

/-- C10 amended: the route sorts the distinct names ascending by the value
of the first digit run; it succeeds whenever every distinct name has a
digit run, and also on lists of fewer than two names even without digits
(the comparator is then never invoked); with at least two names, any
key-less name makes the comparator throw and the route answer 500. -/
theorem c10_agency_sort (store : List RegulationRecord) :
    ((∀ a ∈ distinctAgencies store, (agencyKey a).isSome = true) →
      (listAgencies store).isOk = true) ∧
    ((distinctAgencies store).length ≤ 1 → (listAgencies store).isOk = true) ∧
    (∀ a ∈ distinctAgencies store, 2 ≤ (distinctAgencies store).length →
      agencyKey a = none → listAgencies store = .error .typeError) ∧
    (∀ l, listAgencies store = .ok l →
      l.Perm (distinctAgencies store) ∧ List.Sorted keyLe l) := by
  refine ⟨?_, ?_, ?_, ?_⟩
  · intro h
    exact sortAgenciesAux_isOk (distinctAgencies store) [] h (by simp)
  · intro hlen
    unfold listAgencies
    cases hd : distinctAgencies store with
    | nil => rfl
    | cons a rest =>
      cases hr : rest with
      | nil => rfl
      | cons b more =>
        rw [hd, hr] at hlen
        simp at hlen
  · intro a ha hlen hbad
    unfold listAgencies
    cases hd : distinctAgencies store with
    | nil => rw [hd] at hlen; simp at hlen
    | cons x rest =>
      cases hr : rest with
      | nil => rw [hd, hr] at hlen; simp at hlen
      | cons y more =>
        subst hr
        rw [hd] at ha
        rw [sortAgenciesAux_nil_cons]
        rcases List.mem_cons.mp ha with h1 | h1
        · subst h1
          have hins : insertCmp y [a] = .error .typeError :=
            insertCmp_err_head_bad y a [] hbad
          unfold sortAgenciesAux
          rw [hins]
        · exact sortAgenciesAux_err_of_bad (y :: more) [x]
            (by simp) ⟨a, h1, hbad⟩
  · intro l hl
    constructor
    · have := sortAgenciesAux_perm (distinctAgencies store) [] l hl
      simpa using this
    · exact sortAgenciesAux_sorted (distinctAgencies store) [] l
        List.sorted_nil hl

/-- A record with a digit-less agency name. -/
def recFoo : RegulationRecord :=
  ⟨"Foo", "foo", 0, 0, "c", .num 0, .num 0⟩

/-- Records with digit-bearing agency names for the C10 witness. -/
def recT10 : RegulationRecord :=
  ⟨"Title 10", "t10", 0, 0, "ca", .num 0, .num 0⟩

/-- Second digit-bearing record for the C10 witness. -/
def recT2 : RegulationRecord :=
  ⟨"Title 2", "t2", 0, 0, "cb", .num 0, .num 0⟩

/-- C10 counterexample: a store with the single digit-less agency name
`Foo` is listed successfully (the comparator is never called on a
one-element list), contradicting the claim that any digit-less name makes
the handler throw. -/
theorem c10_digitless_singleton_ok :
    agencyKey "Foo" = none ∧ listAgencies [recFoo] = .ok ["Foo"] :=
  ⟨rfl, rfl⟩

/-- Witness for the amended C10 on a two-record store with digit keys. -/
theorem c10_agency_sort_witness :
    (∀ a ∈ distinctAgencies [recT10, recT2], (agencyKey a).isSome = true) ∧
    (listAgencies [recT10, recT2]).isOk = true :=
  ⟨by decide, (c10_agency_sort [recT10, recT2]).1 (by decide)⟩

end Ecfr
